import Mathlib

/-!
Verification of `tools/filter_leaks.py`, a wrapper that runs a command,
captures its combined stdout/stderr text, filters out known leak-report
blocks matched by suppression regexes, prints the filtered text, and exits
with a status reflecting whether an unsuppressed `"Leak: "` line remains.

Text is modelled as `List Char`; a captured stream is split on `'\n'`
exactly as Python's `str.split('\n')` does, processed line by line by the
same state machine as the script, and re-joined with `'\n'`.
-/

namespace FilterLeaks

/-- Python `s1.startswith(s2)` / list prefix test, written out structurally. -/
def startsWithL : List Char → List Char → Bool
  | [], _ => true
  | _ :: _, [] => false
  | p :: ps, c :: cs => (p = c) && startsWithL ps cs

/-- Characters stripped by Python's `str.strip()`: exactly those with
`str.isspace()` true — space, tab, LF, VT, FF, CR, FS, GS, RS, US, NEL,
NBSP, Ogham space mark, U+2000–U+200A, line and paragraph separators,
narrow no-break space, medium mathematical space, ideographic space. -/
def isPySpace (c : Char) : Bool :=
  c = ' ' || c = '\t' || c = '\n' || c = '\x0b' || c = '\x0c' || c = '\r' ||
  c = '\x1c' || c = '\x1d' || c = '\x1e' || c = '\x1f' || c = '\x85' || c = '\xa0' ||
  c = '\u1680' ||
  c = '\u2000' || c = '\u2001' || c = '\u2002' || c = '\u2003' || c = '\u2004' ||
  c = '\u2005' || c = '\u2006' || c = '\u2007' || c = '\u2008' || c = '\u2009' ||
  c = '\u200a' || c = '\u2028' || c = '\u2029' || c = '\u202f' || c = '\u205f' ||
  c = '\u3000'

/-- Python `line.strip()`: drop leading and trailing whitespace. -/
def pyStrip (s : List Char) : List Char :=
  ((s.dropWhile isPySpace).reverse.dropWhile isPySpace).reverse

/-- Python `"\n".join(ls)`. -/
def joinNl : List (List Char) → List Char
  | [] => []
  | [l] => l
  | l :: ls => l ++ '\n' :: joinNl ls

/-- Python `s.split('\n')`: always returns at least one piece; a trailing
newline yields a trailing empty piece. -/
def splitNl : List Char → List (List Char)
  | [] => [[]]
  | c :: cs =>
    if c = '\n' then [] :: splitNl cs
    else
      match splitNl cs with
      | [] => [[c]]
      | l :: ls => (c :: l) :: ls

/-- Scan for an occurrence of `l2` reachable from the current position
without crossing a newline: the semantics of the `.*pat` tail of
`re.search`, where `.` matches any character except `'\n'`. -/
def searchNoNl (l2 : List Char) : List Char → Bool
  | [] => startsWithL l2 []
  | c :: cs => startsWithL l2 (c :: cs) || (!(c = '\n') && searchNoNl l2 cs)

/-- Python `re.search(l1 + ".*" + l2, s) is not None` for literal pieces
`l1`, `l2`: some position starts with `l1`, and `l2` occurs later with no
intervening newline. -/
def reSearch2 (l1 l2 : List Char) : List Char → Bool
  | [] => startsWithL l1 [] && searchNoNl l2 []
  | c :: cs =>
    (startsWithL l1 (c :: cs) && searchNoNl l2 ((c :: cs).drop l1.length)) ||
    reSearch2 l1 l2 cs

/-- The script's `suppressions` list. Each regex is of the shape
`literal1 + ".*" + literal2`, kept here as the pair of literals:
`r"NSArray.*CoreFoundation"` and `r"AXObserverCookie.*HIServices"`. -/
def suppressions : List (List Char × List Char) :=
  [("NSArray".toList, "CoreFoundation".toList),
   ("AXObserverCookie".toList, "HIServices".toList)]

/-- `any(re.search(s, block_str) for s in suppressions)`. -/
def isSuppressed (s : List Char) : Bool :=
  suppressions.any fun p => reSearch2 p.1 p.2 s

/-- `"Leak: "` as a character list. -/
def leakPfx : List Char := "Leak: ".toList

/-- `"Call stack:"` as a character list. -/
def callStackPfx : List Char := "Call stack:".toList

/-- Close an accumulated block: join its lines, and append the joined text
to the output sequence unless a suppression pattern matches it
(`if not any(re.search(s, block_str) ...): filtered_output.append(block_str)`). -/
def closeBlock (out : List (List Char)) (acc : List (List Char)) : List (List Char) :=
  if isSuppressed (joinNl acc) then out else out ++ [joinNl acc]

/-- The script's per-line state machine (`for line in lines: ...` plus the
final flush). `acc` is `current_leak`, `out` is `filtered_output`. -/
def processLines : List (List Char) → List (List Char) → List (List Char) → List (List Char)
  | [], acc, out =>
    -- flush: `if current_leak: ...`
    if acc.isEmpty then out else closeBlock out acc
  | line :: rest, acc, out =>
    if startsWithL leakPfx line then
      processLines rest [line] (if acc.isEmpty then out else closeBlock out acc)
    else if startsWithL callStackPfx (pyStrip line) || (!acc.isEmpty && !(pyStrip line).isEmpty) then
      processLines rest (acc ++ [line]) out
    else if (pyStrip line).isEmpty && !acc.isEmpty then
      processLines rest [] (closeBlock out (acc ++ [line]))
    else
      processLines rest acc (if acc.isEmpty then out ++ [line] else out)

/-- `filtered_output` computed from the split lines of the captured text. -/
def filterLines (lines : List (List Char)) : List (List Char) :=
  processLines lines [] []

/-- `final_output = "\n".join(filtered_output)` over the captured text. -/
def finalOutput (captured : List Char) : List Char :=
  joinNl (filterLines (splitNl captured))

/-- Substring test (`"Leak: " in final_output`): the pattern occurs at some
position. -/
def containsLit (pat : List Char) : List Char → Bool
  | [] => startsWithL pat []
  | c :: cs => startsWithL pat (c :: cs) || containsLit pat cs

/-- The exit status on the normal path:
`sys.exit(1 if "Leak: " in final_output else 0)`. -/
def exitStatus (captured : List Char) : Nat :=
  if containsLit leakPfx (finalOutput captured) then 1 else 0

/-- Result of one invocation of the wrapper: what was written to stdout,
the wrapper's exit status, and whether a child process was spawned. -/
structure RunResult where
  printed : List Char
  exitCode : Nat
  spawned : Bool
deriving DecidableEq

/-- `"Usage: filter_leaks.py <command> [args...]"`. -/
def usageMsg : List Char := "Usage: filter_leaks.py <command> [args...]".toList

/-- The whole `main` on its non-exceptional paths. `args` is `sys.argv[1:]`
(the command to forward); `childOut` is the captured combined
stdout/stderr text of the child and `childExit` its exit code, both
parameters of the run. `print` appends one `'\n'` to what it writes. -/
def mainModel (args : List String) (childOut : List Char) (childExit : Int) : RunResult :=
  if args.isEmpty then
    { printed := usageMsg ++ ['\n'], exitCode := 1, spawned := false }
  else
    { printed := finalOutput childOut ++ ['\n'],
      exitCode := exitStatus childOut,
      spawned := true }

/-- A segment of the input line stream: either a single pass-through line
or a leak block (its lines, in order, including a closing blank line when
one closed it). -/
inductive Seg where
  | pass (line : List Char)
  | block (ls : List (List Char))
deriving DecidableEq

/-- The input lines a segment covers. -/
def segLines : Seg → List (List Char)
  | .pass l => [l]
  | .block ls => ls

/-- What a segment contributes to `filtered_output`: a pass-through line is
kept as-is; a block is dropped when a suppression regex matches its joined
text and otherwise kept as one joined string. -/
def segKeep : Seg → List (List Char)
  | .pass l => [l]
  | .block ls => if isSuppressed (joinNl ls) then [] else [joinNl ls]

/-- Concatenation of `segLines` over a segment list. -/
def segsLines (segs : List Seg) : List (List Char) :=
  segs.foldr (fun sg r => segLines sg ++ r) []

/-- Concatenation of `segKeep` over a segment list. -/
def segsKeep (segs : List Seg) : List (List Char) :=
  segs.foldr (fun sg r => segKeep sg ++ r) []

/-- The same state machine as `processLines`, but recording how the input
lines are grouped into pass-through lines and blocks instead of filtering. -/
def segmentLines : List (List Char) → List (List Char) → List Seg
  | [], acc => if acc.isEmpty then [] else [Seg.block acc]
  | line :: rest, acc =>
    if startsWithL leakPfx line then
      (if acc.isEmpty then [] else [Seg.block acc]) ++ segmentLines rest [line]
    else if startsWithL callStackPfx (pyStrip line) || (!acc.isEmpty && !(pyStrip line).isEmpty) then
      segmentLines rest (acc ++ [line])
    else if (pyStrip line).isEmpty && !acc.isEmpty then
      Seg.block (acc ++ [line]) :: segmentLines rest []
    else
      if acc.isEmpty then Seg.pass line :: segmentLines rest acc
      else segmentLines rest acc

/-! ### Basic lemmas about the string primitives -/

theorem startsWithL_iff (p s : List Char) :
    startsWithL p s = true ↔ ∃ t, p ++ t = s := by
  induction p generalizing s with
  | nil => simp [startsWithL]
  | cons a ps ih =>
    cases s with
    | nil => simp [startsWithL]
    | cons c cs =>
      simp only [startsWithL, Bool.and_eq_true, decide_eq_true_eq, ih]
      constructor
      · rintro ⟨rfl, t, rfl⟩
        exact ⟨t, rfl⟩
      · rintro ⟨t, h⟩
        rw [List.cons_append] at h
        obtain ⟨h1, h2⟩ := List.cons.inj h
        exact ⟨h1, t, h2⟩

theorem containsLit_iff (pat s : List Char) :
    containsLit pat s = true ↔ ∃ x y, x ++ pat ++ y = s := by
  induction s with
  | nil =>
    simp only [containsLit, startsWithL_iff]
    constructor
    · rintro ⟨t, h⟩
      exact ⟨[], t, by simpa using h⟩
    · rintro ⟨x, y, h⟩
      simp only [List.append_eq_nil] at h
      exact ⟨[], by simp [h.1.2]⟩
  | cons c cs ih =>
    simp only [containsLit, Bool.or_eq_true, startsWithL_iff, ih]
    constructor
    · rintro (⟨t, h⟩ | ⟨x, y, h⟩)
      · exact ⟨[], t, by simpa using h⟩
      · exact ⟨c :: x, y, by simp [h]⟩
    · rintro ⟨x, y, h⟩
      cases x with
      | nil => exact Or.inl ⟨y, by simpa using h⟩
      | cons a x' =>
        rw [List.cons_append, List.cons_append] at h
        obtain ⟨_, h2⟩ := List.cons.inj h
        exact Or.inr ⟨x', y, h2⟩

theorem splitNl_ne_nil (s : List Char) : splitNl s ≠ [] := by
  cases s with
  | nil => simp [splitNl]
  | cons c cs =>
    simp only [splitNl]
    split
    · simp
    · split <;> simp

theorem joinNl_cons_of_ne_nil (l : List Char) (ls : List (List Char)) (h : ls ≠ []) :
    joinNl (l :: ls) = l ++ '\n' :: joinNl ls := by
  cases ls with
  | nil => exact absurd rfl h
  | cons m ms => rfl

theorem joinNl_splitNl (s : List Char) : joinNl (splitNl s) = s := by
  induction s with
  | nil => rfl
  | cons c cs ih =>
    simp only [splitNl]
    split
    · rename_i hc
      rw [joinNl_cons_of_ne_nil _ _ (splitNl_ne_nil cs), ih, hc]
      rfl
    · cases hsp : splitNl cs with
      | nil => exact absurd hsp (splitNl_ne_nil cs)
      | cons l ls =>
        rw [hsp] at ih
        cases ls with
        | nil =>
          simp only [joinNl] at ih ⊢
          rw [ih]
        | cons m ms =>
          rw [joinNl_cons_of_ne_nil (c :: l) (m :: ms) (by simp)]
          rw [joinNl_cons_of_ne_nil l (m :: ms) (by simp)] at ih
          rw [List.cons_append, ih]

/-! ### Segmentation lemmas: the filter as a per-segment decision -/

@[simp] theorem segsLines_nil : segsLines [] = [] := rfl

@[simp] theorem segsLines_cons (sg : Seg) (segs : List Seg) :
    segsLines (sg :: segs) = segLines sg ++ segsLines segs := rfl

@[simp] theorem segsLines_append (a b : List Seg) :
    segsLines (a ++ b) = segsLines a ++ segsLines b := by
  induction a with
  | nil => simp
  | cons sg a ih => simp [ih]

@[simp] theorem segsKeep_nil : segsKeep [] = [] := rfl

@[simp] theorem segsKeep_cons (sg : Seg) (segs : List Seg) :
    segsKeep (sg :: segs) = segKeep sg ++ segsKeep segs := rfl

@[simp] theorem segsKeep_append (a b : List Seg) :
    segsKeep (a ++ b) = segsKeep a ++ segsKeep b := by
  induction a with
  | nil => simp
  | cons sg a ih => simp [ih]

/-- In the final two branches of the state machine the accumulator is
necessarily empty: a non-empty accumulator is always caught by the
continue-block or close-block branch. -/
theorem acc_empty_of_fallthrough (line : List Char) (acc : List (List Char))
    (h2 : (startsWithL callStackPfx (pyStrip line) || (!acc.isEmpty && !(pyStrip line).isEmpty)) = false)
    (h3 : ((pyStrip line).isEmpty && !acc.isEmpty) = false) :
    acc = [] := by
  rcases hacc : acc.isEmpty with hf | ht
  · rcases hstrip : (pyStrip line).isEmpty with hsf | hst
    · simp [hacc, hstrip] at h2
    · simp [hacc, hstrip] at h3
  · exact List.isEmpty_iff.mp hacc

/-- The segments of the input cover exactly the input lines, in order:
segmentation is a partition of the line stream. -/
theorem segsLines_segmentLines (ls : List (List Char)) :
    ∀ acc, segsLines (segmentLines ls acc) = acc ++ ls := by
  induction ls with
  | nil =>
    intro acc
    simp only [segmentLines]
    split
    · rename_i hacc
      simp [List.isEmpty_iff.mp hacc]
    · simp [segLines]
  | cons line rest ih =>
    intro acc
    simp only [segmentLines]
    split
    · rw [segsLines_append, ih [line]]
      split
      · rename_i hacc
        simp [List.isEmpty_iff.mp hacc, segLines]
      · simp [segLines]
    · split
      · rw [ih (acc ++ [line])]
        simp
      · split
        · rename_i h3
          simp only [segsLines_cons, segLines, ih []]
          simp
        · rename_i h1 h2 h3
          have hacc : acc = [] :=
            acc_empty_of_fallthrough line acc (by simpa using h2) (by simpa using h3)
          subst hacc
          simp [segLines, ih []]

/-- `processLines` is the concatenation of the per-segment keep decision
over the segmentation, appended to the output accumulated so far. -/
theorem processLines_eq_segsKeep (ls : List (List Char)) :
    ∀ acc out, processLines ls acc out = out ++ segsKeep (segmentLines ls acc) := by
  induction ls with
  | nil =>
    intro acc out
    simp only [processLines, segmentLines]
    split
    · simp
    · simp only [segsKeep_cons, segsKeep_nil, segKeep, closeBlock]
      split <;> simp
  | cons line rest ih =>
    intro acc out
    simp only [processLines, segmentLines]
    split
    · rw [ih [line] _, segsKeep_append]
      split
      · simp
      · simp only [segsKeep_cons, segsKeep_nil, segKeep, closeBlock]
        split <;> simp
    · split
      · exact ih (acc ++ [line]) out
      · split
        · rw [ih [] _]
          simp only [segsKeep_cons, segKeep, closeBlock]
          split <;> simp
        · rename_i h1 h2 h3
          have hacc : acc = [] :=
            acc_empty_of_fallthrough line acc (by simpa using h2) (by simpa using h3)
          subst hacc
          rw [ih [] _]
          simp [segKeep]

/-! ### Pass-through and substring lemmas -/

theorem bool_eq_of_iff {a b : Bool} (h : a = true ↔ b = true) : a = b := by
  cases a <;> cases b <;> simp_all

/-- Lines that neither start a leak block nor look like a call-stack line
are emitted unchanged, immediately, while the accumulator is empty. -/
theorem processLines_passthrough (ls : List (List Char)) :
    (∀ l ∈ ls, startsWithL leakPfx l = false ∧ startsWithL callStackPfx (pyStrip l) = false) →
    ∀ out, processLines ls [] out = out ++ ls := by
  induction ls with
  | nil => intro _ out; simp [processLines]
  | cons line rest ih =>
    intro h out
    obtain ⟨h1, h2⟩ := h line (by simp)
    have ih' := ih (fun l hl => h l (List.mem_cons_of_mem _ hl)) (out ++ [line])
    simp [processLines, h1, h2, ih']

/-- `"Leak: "` does not end in a newline. -/
theorem leakPfx_not_concat_nl (P : List Char) : leakPfx ≠ P ++ ['\n'] := by
  intro h
  have h0 : (['L', 'e', 'a', 'k', ':'] : List Char) ++ [' '] = P ++ ['\n'] := by
    rw [← h]; rfl
  have h2 := (List.append_inj' h0 (by simp)).2
  simp at h2

/-- Appending one character that the pattern does not end in cannot create
or destroy an occurrence of the pattern. -/
theorem containsLit_append_of_not_end (pat l : List Char) (c : Char)
    (hne : pat ≠ []) (hlast : ∀ P, pat ≠ P ++ [c]) :
    containsLit pat (l ++ [c]) = containsLit pat l := by
  apply bool_eq_of_iff
  rw [containsLit_iff, containsLit_iff]
  constructor
  · rintro ⟨x, y, h⟩
    rcases List.eq_nil_or_concat' y with rfl | ⟨y', a, rfl⟩
    · rw [List.append_nil] at h
      rcases List.eq_nil_or_concat' pat with rfl | ⟨P, a, hP⟩
      · exact absurd rfl hne
      · subst hP
        rw [← List.append_assoc] at h
        have h2 := (List.append_inj' h (by simp)).2
        have hac : a = c := by simpa using h2
        subst hac
        exact absurd rfl (hlast P)
    · rw [← List.append_assoc] at h
      have h1 := (List.append_inj' h (by simp)).1
      exact ⟨x, y', h1⟩
  · rintro ⟨x, y, h⟩
    exact ⟨x, y ++ [c], by rw [← List.append_assoc, h]⟩

/-- The trailing newline added by `print` does not affect whether
`"Leak: "` occurs in the printed text. -/
theorem containsLit_leak_append_nl (l : List Char) :
    containsLit leakPfx (l ++ ['\n']) = containsLit leakPfx l :=
  containsLit_append_of_not_end leakPfx l '\n' (by decide) leakPfx_not_concat_nl

/-! ### Semantic characterisation of the regex embedding

`reSearch2 l1 l2` was written as the search procedure for the pattern
`l1 + ".*" + l2`; these lemmas check it against the declarative reading:
an occurrence of `l1`, then any characters containing no newline, then an
occurrence of `l2`. -/

theorem searchNoNl_iff (l2 : List Char) :
    ∀ s, searchNoNl l2 s = true ↔ ∃ m y, m ++ l2 ++ y = s ∧ '\n' ∉ m := by
  intro s
  induction s with
  | nil =>
    simp only [searchNoNl, startsWithL_iff]
    constructor
    · rintro ⟨t, h⟩
      exact ⟨[], t, by simpa using h, by simp⟩
    · rintro ⟨m, y, h, _⟩
      simp only [List.append_eq_nil] at h
      exact ⟨[], by simp [h.1.2]⟩
  | cons c cs ih =>
    simp only [searchNoNl, Bool.or_eq_true, Bool.and_eq_true, Bool.not_eq_true',
      decide_eq_false_iff_not, startsWithL_iff, ih]
    constructor
    · rintro (⟨t, h⟩ | ⟨hc, m, y, h, hm⟩)
      · exact ⟨[], t, by simpa using h, by simp⟩
      · refine ⟨c :: m, y, by rw [List.cons_append, List.cons_append, h], ?_⟩
        intro hmem
        rcases List.mem_cons.mp hmem with h' | h'
        · exact hc h'.symm
        · exact hm h'
    · rintro ⟨m, y, h, hm⟩
      cases m with
      | nil => exact Or.inl ⟨y, by simpa using h⟩
      | cons a m' =>
        rw [List.cons_append, List.cons_append] at h
        obtain ⟨rfl, h2⟩ := List.cons.inj h
        exact Or.inr ⟨fun hc => hm (by simp [hc]), m', y, h2,
          fun h' => hm (List.mem_cons_of_mem _ h')⟩

theorem reSearch2_iff (l1 l2 : List Char) :
    ∀ s, reSearch2 l1 l2 s = true ↔
      ∃ x m y, x ++ l1 ++ m ++ l2 ++ y = s ∧ '\n' ∉ m := by
  intro s
  induction s with
  | nil =>
    simp only [reSearch2, Bool.and_eq_true, startsWithL_iff, searchNoNl_iff]
    constructor
    · rintro ⟨⟨t, ht⟩, m, y, h, hm⟩
      simp only [List.append_eq_nil] at ht h
      exact ⟨[], [], [], by simp [ht.1, h.1.1, h.1.2, h.2], by simp⟩
    · rintro ⟨x, m, y, h, hm⟩
      simp only [List.append_eq_nil] at h
      exact ⟨⟨[], by simp [h.1.1.1.2]⟩, [], [], by simp [h.1.2], by simp⟩
  | cons c cs ih =>
    simp only [reSearch2, Bool.or_eq_true, Bool.and_eq_true, startsWithL_iff,
      searchNoNl_iff, ih]
    constructor
    · rintro (⟨⟨t, ht⟩, m, y, h, hm⟩ | ⟨x, m, y, h, hm⟩)
      · have hd : (c :: cs).drop l1.length = t := by rw [← ht, List.drop_left]
        rw [hd] at h
        have hall : l1 ++ (m ++ l2 ++ y) = c :: cs := by rw [h, ht]
        exact ⟨[], m, y, by simpa [List.append_assoc] using hall, hm⟩
      · exact ⟨c :: x, m, y,
          by rw [List.cons_append, List.cons_append, List.cons_append,
                 List.cons_append, h], hm⟩
    · rintro ⟨x, m, y, h, hm⟩
      cases x with
      | nil =>
        have h' : l1 ++ (m ++ l2 ++ y) = c :: cs := by
          simpa [List.append_assoc] using h
        refine Or.inl ⟨⟨m ++ l2 ++ y, h'⟩, m, y, ?_, hm⟩
        rw [← h', List.drop_left]
      | cons a x' =>
        rw [List.cons_append, List.cons_append, List.cons_append,
            List.cons_append] at h
        obtain ⟨rfl, h2⟩ := List.cons.inj h
        exact Or.inr ⟨x', m, y, h2, hm⟩

/-! ### Claim theorems -/

/-- C1: on the normal (non-error) path the program exits with status 1 if
and only if the literal substring `"Leak: "` occurs anywhere in the final
printed output, and exits with status 0 otherwise. -/
theorem c1_exit_one_iff_leak_in_printed (args : List String) (childOut : List Char)
    (childExit : Int) (h : args ≠ []) :
    ((mainModel args childOut childExit).exitCode = 1 ↔
      containsLit leakPfx (mainModel args childOut childExit).printed = true) ∧
    ((mainModel args childOut childExit).exitCode = 0 ↔
      containsLit leakPfx (mainModel args childOut childExit).printed = false) := by
  cases args with
  | nil => exact absurd rfl h
  | cons a as =>
    simp only [mainModel, List.isEmpty_cons, Bool.false_eq_true, if_false]
    rw [containsLit_leak_append_nl]
    cases hb : containsLit leakPfx (finalOutput childOut) <;> simp [exitStatus, hb]

/-- Witness for C1 at a concrete run that leaves an unsuppressed leak. -/
theorem c1_witness :
    ((["c"] : List String) ≠ []) ∧
    (((mainModel ["c"] "Leak: x".toList 0).exitCode = 1 ↔
       containsLit leakPfx (mainModel ["c"] "Leak: x".toList 0).printed = true) ∧
     ((mainModel ["c"] "Leak: x".toList 0).exitCode = 0 ↔
       containsLit leakPfx (mainModel ["c"] "Leak: x".toList 0).printed = false)) :=
  ⟨by decide, c1_exit_one_iff_leak_in_printed ["c"] "Leak: x".toList 0 (by decide)⟩

/-- C2: a closed block (closed by a blank line, a new `"Leak: "` line, or
end of input) is dropped exactly when some suppression regex matches its
newline-joined text, and is otherwise appended to the output unchanged:
the filtered output is the concatenation of the per-segment keep decision,
and on blocks that decision is drop-iff-suppressed. -/
theorem c2_block_dropped_iff_suppressed (lines : List (List Char)) :
    filterLines lines = segsKeep (segmentLines lines []) ∧
    ∀ bs, segKeep (Seg.block bs) =
      if isSuppressed (joinNl bs) = true then [] else [joinNl bs] := by
  refine ⟨?_, fun bs => rfl⟩
  rw [filterLines, processLines_eq_segsKeep]
  simp

/-- C3 counterexample: a line whose stripped form starts with
`"Call stack:"`, met while the accumulator is empty, is not passed through:
here it opens a block that a suppression regex then removes, so the claimed
pass-through behaviour fails on this input. -/
theorem c3_counterexample :
    startsWithL leakPfx "Call stack: NSArray q CoreFoundation".toList = false ∧
    filterLines ["Call stack: NSArray q CoreFoundation".toList] = [] := by decide

/-- C3 (amended): a line met while the accumulator is empty that neither
starts with `"Leak: "` nor strips to a line starting with `"Call stack:"`
is emitted unchanged, immediately and in order, without being accumulated
or suppression-matched. -/
theorem c3_passthrough_amended (line : List Char) (rest out : List (List Char))
    (h1 : startsWithL leakPfx line = false)
    (h2 : startsWithL callStackPfx (pyStrip line) = false) :
    processLines (line :: rest) [] out = processLines rest [] (out ++ [line]) := by
  simp [processLines, h1, h2]

/-- Witness for the amended C3 on a concrete ordinary line. -/
theorem c3_witness :
    (startsWithL leakPfx "hello".toList = false ∧
      startsWithL callStackPfx (pyStrip "hello".toList) = false) ∧
    processLines ["hello".toList] [] [] = processLines [] [] ([] ++ ["hello".toList]) :=
  ⟨⟨by decide, by decide⟩, c3_passthrough_amended "hello".toList [] [] (by decide) (by decide)⟩

/-- C4 counterexample: `"x Leak: y"` contains no line starting with
`"Leak: "`, and the filter indeed reproduces it verbatim, but the exit
status is 1 rather than the claimed 0, because the exit test looks for
`"Leak: "` anywhere in the printed text, not only at line starts. -/
theorem c4_counterexample :
    (∀ l ∈ splitNl "x Leak: y".toList, startsWithL leakPfx l = false) ∧
    finalOutput "x Leak: y".toList = "x Leak: y".toList ∧
    exitStatus "x Leak: y".toList = 1 := by decide

/-- C4 (amended): if no line of the captured text starts with `"Leak: "`,
no line strips to one starting with `"Call stack:"`, and `"Leak: "` does
not occur anywhere in the captured text, then the filtered output equals
the captured text verbatim and the exit status is 0. -/
theorem c4_verbatim_amended (cap : List Char)
    (hleak : ∀ l ∈ splitNl cap, startsWithL leakPfx l = false)
    (hcs : ∀ l ∈ splitNl cap, startsWithL callStackPfx (pyStrip l) = false)
    (hsub : containsLit leakPfx cap = false) :
    finalOutput cap = cap ∧ exitStatus cap = 0 := by
  have hfl : filterLines (splitNl cap) = splitNl cap := by
    rw [filterLines,
      processLines_passthrough (splitNl cap) (fun l hl => ⟨hleak l hl, hcs l hl⟩) []]
    simp
  have hfo : finalOutput cap = cap := by
    rw [finalOutput, hfl, joinNl_splitNl]
  refine ⟨hfo, ?_⟩
  rw [exitStatus, hfo, hsub]
  simp

/-- Witness for the amended C4 on a concrete leak-free capture. -/
theorem c4_witness :
    ((∀ l ∈ splitNl "hello\nworld\n".toList, startsWithL leakPfx l = false) ∧
     (∀ l ∈ splitNl "hello\nworld\n".toList,
        startsWithL callStackPfx (pyStrip l) = false) ∧
     containsLit leakPfx "hello\nworld\n".toList = false) ∧
    (finalOutput "hello\nworld\n".toList = "hello\nworld\n".toList ∧
     exitStatus "hello\nworld\n".toList = 0) :=
  ⟨⟨by decide, by decide, by decide⟩,
   c4_verbatim_amended "hello\nworld\n".toList (by decide) (by decide) (by decide)⟩

/-- C5: the segmentation partitions the input lines in order, and the
output is the in-order concatenation of the per-segment keep decision:
pass-through lines survive verbatim, each block survives as one joined
string or disappears entirely, and relative order is preserved. -/
theorem c5_order_preservation (lines : List (List Char)) :
    segsLines (segmentLines lines []) = lines ∧
    filterLines lines = segsKeep (segmentLines lines []) := by
  constructor
  · simpa using segsLines_segmentLines lines []
  · rw [filterLines, processLines_eq_segsKeep]
    simp

/-- C6: when input ends with a non-empty accumulator, the final block is
closed with the same logic as an explicit close: checked against the
suppression patterns and appended exactly when none matches. -/
theorem c6_eof_flush (acc out : List (List Char)) (h : acc ≠ []) :
    processLines [] acc out =
      if isSuppressed (joinNl acc) = true then out else out ++ [joinNl acc] := by
  cases acc with
  | nil => exact absurd rfl h
  | cons l ls => simp [processLines, closeBlock]

/-- Witness for C6 on a concrete unterminated block. -/
theorem c6_witness :
    (["Leak: z".toList] : List (List Char)) ≠ [] ∧
    processLines [] ["Leak: z".toList] [] =
      (if isSuppressed (joinNl ["Leak: z".toList]) = true then ([] : List (List Char))
       else [] ++ [joinNl ["Leak: z".toList]]) :=
  ⟨by decide, c6_eof_flush ["Leak: z".toList] [] (by decide)⟩

/-- C7: with no command argument the program prints the usage message (plus
the newline added by `print`), exits with code 1, and spawns no
subprocess. -/
theorem c7_usage_no_subprocess (childOut : List Char) (childExit : Int) :
    mainModel [] childOut childExit =
      { printed := usageMsg ++ ['\n'], exitCode := 1, spawned := false } := rfl

/-- C8: the filter's behaviour does not depend on the child's exit code:
two runs with identical captured output and different child exit codes
print the same text and exit with the same status, and that status is
computed solely from the presence of `"Leak: "` in the filtered output. -/
theorem c8_child_exit_independence (args : List String) (childOut : List Char)
    (e1 e2 : Int) :
    mainModel args childOut e1 = mainModel args childOut e2 ∧
    (args ≠ [] →
      (mainModel args childOut e1).exitCode =
        if containsLit leakPfx (finalOutput childOut) = true then 1 else 0) := by
  refine ⟨rfl, fun h => ?_⟩
  cases args with
  | nil => exact absurd rfl h
  | cons a as => simp [mainModel, exitStatus]

/-- Witness for C8 on one capture under two different child exit codes. -/
theorem c8_witness :
    mainModel ["c"] "x Leak: ".toList 0 = mainModel ["c"] "x Leak: ".toList 7 ∧
    (mainModel ["c"] "x Leak: ".toList 0).exitCode =
      (if containsLit leakPfx (finalOutput "x Leak: ".toList) = true then 1 else 0) :=
  ⟨(c8_child_exit_independence ["c"] "x Leak: ".toList 0 7).1,
   (c8_child_exit_independence ["c"] "x Leak: ".toList 0 7).2 (by decide)⟩

/-- C10: on the normal path the printed text is the newline-join of the
filtered output sequence followed by exactly one extra newline; in
particular, when filtering changes nothing the printed text is the
captured text plus one newline. -/
theorem c10_printed_newline (args : List String) (childOut : List Char)
    (childExit : Int) (h : args ≠ []) :
    (mainModel args childOut childExit).printed =
      joinNl (filterLines (splitNl childOut)) ++ ['\n'] ∧
    (joinNl (filterLines (splitNl childOut)) = childOut →
      (mainModel args childOut childExit).printed = childOut ++ ['\n']) := by
  cases args with
  | nil => exact absurd rfl h
  | cons a as =>
    exact ⟨by simp [mainModel, finalOutput],
      fun he => by simp [mainModel, finalOutput, he]⟩

/-- Witness for C10 on a capture with a terminal newline that the filter
leaves unchanged: the printed text gains one extra newline. -/
theorem c10_witness :
    (mainModel ["c"] "a\n".toList 0).printed =
      joinNl (filterLines (splitNl "a\n".toList)) ++ ['\n'] ∧
    (mainModel ["c"] "a\n".toList 0).printed = "a\n".toList ++ ['\n'] :=
  ⟨(c10_printed_newline ["c"] "a\n".toList 0 (by decide)).1,
   (c10_printed_newline ["c"] "a\n".toList 0 (by decide)).2 (by decide)⟩

end FilterLeaks
